import Mathlib

/-!
Verification of the qlib_strategy backtest core against its specification.

The definitions below are a shallow embedding of the Python source:
  * `BacktestExecutor._simple_backtest` (src/executors/backtest_executor.py)
  * `BacktestExecutor.get_metrics`, `_calculate_sharpe`, `_calculate_max_drawdown`
  * `ParameterOptimizer.grid_search` / `random_search`
    (src/executors/parameter_optimizer.py)

Prices, cash and positions are modelled as rationals `ℚ` (the Python code
uses IEEE floats; all claims under study are exact-arithmetic claims, and
where a float NaN/inf would arise the relevant claim carries an explicit
hypothesis ruling the degenerate denominator out).  In `ℚ`, `x / 0 = 0`
(Lean's convention); every theorem that depends on a quotient carries a
nonzero-denominator hypothesis so that no conclusion rests on this junk
value.  Signals are modelled as `Int` (the code compares them to `1`,
`-1`, `0`).
-/

/-- Backtest configuration: the three keys `_simple_backtest` reads from
`self.config` (`initial_cash`, `position_ratio`, `commission_rate`). -/
structure SimCfg where
  initial_cash : ℚ
  position_ratio : ℚ
  commission_rate : ℚ
deriving DecidableEq, Repr

/-- The mutable accumulator of the simulation loop: `cash` and `position`. -/
structure SimState where
  cash : ℚ
  position : ℚ
deriving DecidableEq, Repr

/-- One iteration of the signal-dispatch block of
`BacktestExecutor._simple_backtest` (lines 53-65): the `if/elif/elif`
ladder updating `cash` and `position` from the current price and signal. -/
def tradeStep (cfg : SimCfg) (s : SimState) (current_price : ℚ) (signal : Int) : SimState :=
  if signal = 1 ∧ s.position = 0 then
    let position_value := s.cash * cfg.position_ratio
    { cash := s.cash - position_value, position := position_value / current_price }
  else if signal = -1 ∧ s.position = 0 then
    let position_value := s.cash * cfg.position_ratio
    let position := -position_value / current_price
    { cash := s.cash - |position| * current_price * cfg.commission_rate, position := position }
  else if signal = 0 ∧ s.position ≠ 0 then
    { cash := s.cash + s.position * current_price, position := 0 }
  else
    s

/-- The simulation loop of `_simple_backtest` over the per-step
`(current_price, signal)` pairs: after each `tradeStep` the portfolio
value `cash + position * current_price` is appended to the trajectory. -/
def runSteps (cfg : SimCfg) : SimState → List (ℚ × Int) → List ℚ
  | _, [] => []
  | s, (p, sig) :: rest =>
      let s' := tradeStep cfg s p sig
      (s'.cash + s'.position * p) :: runSteps cfg s' rest

/-- The trajectory of `BacktestExecutor._simple_backtest` (lines 38-78):
starting from `cash = initial_cash`, `position = 0`, iterate over bars
`i = 1 .. len-1` reading `close[i]` and `signals[i]`, and return the
list of portfolio values (the `portfolio_value` column of the returned
DataFrame).  The per-step pairs are the element-wise zip of both series
with the first bar dropped, which reads exactly
`(close[i], signals[i])` for `i ≥ 1` whenever every access is in range
— i.e. when `|signals| ≥ |closes|` or `|closes| ≤ 1`.  Outside that
region the source loop raises an `IndexError` instead of truncating;
the full fallible loop is `simple_backtest_run` below, which agrees
with this definition on the in-range region (`runStepsIdx_ok`). -/
def simple_backtest (cfg : SimCfg) (closes : List ℚ) (signals : List Int) : List ℚ :=
  runSteps cfg { cash := cfg.initial_cash, position := 0 }
    ((closes.drop 1).zip (signals.drop 1))

/-- The simulation loop of `_simple_backtest` with the source's actual
indexing: step `i` reads `signals.iloc[i]`
(`backtest_executor.py:50`), which raises `IndexError` when `i` is out
of range of the signal series; the exception propagates and aborts the
run.  The price-list argument is the remaining suffix `close[i:]`
(those accesses are always in range). -/
def runStepsIdx (cfg : SimCfg) (signals : List Int) :
    Nat → SimState → List ℚ → Except String (List ℚ)
  | _, _, [] => Except.ok []
  | i, s, p :: ps =>
      match signals.get? i with
      | none => Except.error "IndexError"
      | some sig =>
          let s' := tradeStep cfg s p sig
          match runStepsIdx cfg signals (i + 1) s' ps with
          | Except.ok rest => Except.ok ((s'.cash + s'.position * p) :: rest)
          | Except.error e => Except.error e

/-- `BacktestExecutor._simple_backtest` with its failure path: the loop
`for i in range(1, len(data))` reads `close[i]` (always in range) and
`signals.iloc[i]` (raising `IndexError` when the signal series is
shorter than the price series). -/
def simple_backtest_run (cfg : SimCfg) (closes : List ℚ) (signals : List Int) :
    Except String (List ℚ) :=
  runStepsIdx cfg signals 1 { cash := cfg.initial_cash, position := 0 } (closes.drop 1)

/-! ## Metrics (`get_metrics`, lines 80-112) -/

/-- Helper for `returnsOf`: consecutive percentage changes against the
running previous value. -/
def returnsAux : ℚ → List ℚ → List ℚ
  | _, [] => []
  | prev, x :: xs => (x - prev) / prev :: returnsAux x xs

/-- `portfolio['returns'] = portfolio['portfolio_value'].pct_change()`
followed by `.dropna()` (lines 76 and 90): the return of the first step
is NaN and is dropped, so the return series is the list of consecutive
percentage changes `(v[i] - v[i-1]) / v[i-1]` for `i ≥ 1`. -/
def returnsOf : List ℚ → List ℚ
  | [] => []
  | v :: vs => returnsAux v vs

/-- `'total_return': (1 + returns).prod() - 1` (line 93). -/
def total_return_of (returns : List ℚ) : ℚ :=
  (returns.map (fun r => 1 + r)).prod - 1

/-- `returns.mean()`; the empty series gives NaN in pandas, modelled here
by the junk value `0 / 0 = 0` of `ℚ` (no claim depends on this value). -/
def meanQ (l : List ℚ) : ℚ := l.sum / (l.length : ℚ)

/-- `'annual_return': returns.mean() * 252` (line 94). -/
def annual_return_of (returns : List ℚ) : ℚ := meanQ returns * 252

/-- `returns.std() ** 2`, pandas sample variance (`ddof = 1`). -/
def varQ (l : List ℚ) : ℚ :=
  (l.map (fun x => (x - meanQ l) ^ 2)).sum / ((l.length : ℚ) - 1)

/-- `_calculate_sharpe` (lines 102-105):
`excess = returns - 0.03 / 252; excess.mean() / excess.std() * sqrt(252)`.
The square root forces the value into `ℝ`; no claim under study reads it. -/
noncomputable def sharpe_ratio_of (returns : List ℚ) : ℝ :=
  let excess := returns.map (fun r => r - (3 / 100 : ℚ) / 252)
  (meanQ excess : ℝ) / Real.sqrt (varQ excess) * Real.sqrt 252

/-- `'volatility': returns.std() * np.sqrt(252)` (line 97). -/
noncomputable def volatility_of (returns : List ℚ) : ℝ :=
  Real.sqrt (varQ returns) * Real.sqrt 252

/-- Helper for `cumprodOnePlus`: running product with accumulator. -/
def scanMulAux (acc : ℚ) : List ℚ → List ℚ
  | [] => []
  | x :: xs => (acc * x) :: scanMulAux (acc * x) xs

/-- `cumulative = (1 + returns).cumprod()` (line 109): the wealth index
`W[i] = Π_{j ≤ i} (1 + r[j])`. -/
def cumprodOnePlus (returns : List ℚ) : List ℚ :=
  scanMulAux 1 (returns.map (fun r => 1 + r))

/-- Helper for `runningMax`: running maximum with accumulator. -/
def scanMaxAux (acc : ℚ) : List ℚ → List ℚ
  | [] => []
  | x :: xs => max acc x :: scanMaxAux (max acc x) xs

/-- `running_max = cumulative.expanding().max()` (line 110). -/
def runningMax : List ℚ → List ℚ
  | [] => []
  | x :: xs => x :: scanMaxAux x xs

/-- `drawdown = (cumulative - running_max) / running_max` (line 111). -/
def drawdownsOf (returns : List ℚ) : List ℚ :=
  List.zipWith (fun w m => (w - m) / m)
    (cumprodOnePlus returns) (runningMax (cumprodOnePlus returns))

/-- `series.min()`: `none` on the empty series (pandas NaN). -/
def listMin : List ℚ → Option ℚ
  | [] => none
  | x :: xs => some (xs.foldl min x)

/-- `_calculate_max_drawdown` (lines 107-112): `drawdown.min()`. -/
def max_drawdown_of (returns : List ℚ) : Option ℚ :=
  listMin (drawdownsOf returns)

/-- The record built by `get_metrics` (lines 92-98). -/
structure Metrics where
  total_return : ℚ
  annual_return : ℚ
  sharpe_ratio : ℝ
  max_drawdown : Option ℚ
  volatility : ℝ

/-- `BacktestExecutor.get_metrics` (lines 80-100): raises
`ValueError("请先运行回测")` when `self.portfolio is None`; otherwise
drops the NaN first return and assembles the metrics record.  There is
no emptiness check on the return series: the record is built
unconditionally. -/
noncomputable def get_metrics (portfolio : Option (List ℚ)) : Except String Metrics :=
  match portfolio with
  | none => Except.error "请先运行回测"
  | some values =>
      let returns := returnsOf values
      Except.ok
        { total_return := total_return_of returns
          annual_return := annual_return_of returns
          sharpe_ratio := sharpe_ratio_of returns
          max_drawdown := max_drawdown_of returns
          volatility := volatility_of returns }

/-- `True` exactly on `Except.ok` (a Python call that did not raise). -/
def isOkE {ε α : Type _} : Except ε α → Bool
  | Except.ok _ => true
  | Except.error _ => false

/-- The `total_return` field of a metrics result, `none` if it raised. -/
def totalReturnOfResult : Except String Metrics → Option ℚ
  | Except.ok m => some m.total_return
  | Except.error _ => none

/-! ## Parameter search (`parameter_optimizer.py`)

Both search loops run a per-trial pipeline (strategy construction +
`run_backtest` + `get_metrics`) inside `try/except`.  The pipeline lives
in other components; the searches are embedded here as functions of the
ordered list of per-trial outcomes (`Except.ok row` for a completed
trial, `Except.error e` for one that raised), of the objective column
`score` (`results_df[metric]`) and of the flag
`metricIsMaxDrawdown` (`metric == 'max_drawdown'`). -/

/-- The `try/except ... continue` accumulation (lines 42-73 and 111-138):
successful trial rows in order, failed trials skipped. -/
def collectOks {α : Type _} : List (Except String α) → List α
  | [] => []
  | Except.ok a :: rest => a :: collectOks rest
  | Except.error _ :: rest => collectOks rest

/-- `Series.idxmax`: index of the first occurrence of the maximum. -/
def idxmax : List ℚ → Nat
  | [] => 0
  | x :: xs =>
      match xs.get? (idxmax xs) with
      | none => 0
      | some v => if x < v then idxmax xs + 1 else 0

/-- `Series.idxmin`: index of the first occurrence of the minimum. -/
def idxmin : List ℚ → Nat
  | [] => 0
  | x :: xs =>
      match xs.get? (idxmin xs) with
      | none => 0
      | some v => if v < x then idxmin xs + 1 else 0

/-- The shared selection step (lines 82-89 and 144-149):
`idxmin` for `max_drawdown`, `idxmax` otherwise, then `iloc[best_idx]`.
`none` when the lookup is out of range — which happens exactly on an
empty result set, where the Python code raises a `KeyError` at
`results_df[metric]`. -/
def select_best {α : Type _} (metricIsMaxDrawdown : Bool) (score : α → ℚ)
    (results : List α) : Option α :=
  let col := results.map score
  let best_idx := if metricIsMaxDrawdown then idxmin col else idxmax col
  results.get? best_idx

/-- `ParameterOptimizer.grid_search` (lines 42-91): collect the surviving
trials, raise `ValueError("没有成功的回测结果")` if none survived, else
return the best row and the full result set. -/
def grid_search {α : Type _} (metricIsMaxDrawdown : Bool) (score : α → ℚ)
    (trials : List (Except String α)) : Except String (α × List α) :=
  let results := collectOks trials
  if results.length = 0 then Except.error "没有成功的回测结果"
  else
    match select_best metricIsMaxDrawdown score results with
    | some best => Except.ok (best, results)
    | none => Except.error "IndexError"

/-- `ParameterOptimizer.random_search` (lines 111-151): same loop and
selection, but no emptiness check — on an all-failed run the selection
hits the empty result frame and raises (`KeyError` at
`results_df[metric]`). -/
def random_search {α : Type _} (metricIsMaxDrawdown : Bool) (score : α → ℚ)
    (trials : List (Except String α)) : Except String (α × List α) :=
  let results := collectOks trials
  match select_best metricIsMaxDrawdown score results with
  | some best => Except.ok (best, results)
  | none => Except.error "KeyError"

/-! ## Spec-side definitions (for refinement comparison only) -/

/-- The spec's error taxonomy (§7), as far as the claims need it. -/
inductive SpecErr where
  | invalidInput
deriving DecidableEq, Repr

/-- Modelled from the spec (§4.1, Failure): "if `prices` or `signals` is
empty, or `current_price <= 0` at any step, the run fails with an
`InvalidInputError`".  This definition follows the spec's words — it is
NOT code of the repository — and exists only to be compared with
`simple_backtest`. -/
def spec_run (cfg : SimCfg) (closes : List ℚ) (signals : List Int) :
    Except SpecErr (List ℚ) :=
  if closes = [] ∨ signals = [] then Except.error SpecErr.invalidInput
  else if ((closes.drop 1).zip (signals.drop 1)).any (fun ps => ps.1 ≤ 0) then
    Except.error SpecErr.invalidInput
  else Except.ok (simple_backtest cfg closes signals)

/-- `i` is the first index attaining the maximum of `col`. -/
def FirstArgmax (col : List ℚ) (i : Nat) : Prop :=
  i < col.length ∧ (∀ j, j < col.length → col.getD j 0 ≤ col.getD i 0) ∧
    ∀ j, j < i → col.getD j 0 < col.getD i 0

/-- `i` is the first index attaining the minimum of `col`. -/
def FirstArgmin (col : List ℚ) (i : Nat) : Prop :=
  i < col.length ∧ (∀ j, j < col.length → col.getD i 0 ≤ col.getD j 0) ∧
    ∀ j, j < i → col.getD i 0 < col.getD j 0

/-! ## Supporting lemmas -/

lemma runSteps_length (cfg : SimCfg) (s : SimState) (l : List (ℚ × Int)) :
    (runSteps cfg s l).length = l.length := by
  induction l generalizing s with
  | nil => rfl
  | cons p rest ih =>
      cases p with
      | mk price sig => simp [runSteps, ih]

lemma collectOks_eq_nil_iff {α : Type _} (trials : List (Except String α)) :
    collectOks trials = [] ↔ ∀ t ∈ trials, isOkE t = false := by
  induction trials with
  | nil => simp [collectOks]
  | cons t rest ih =>
      cases t with
      | ok a => simp [collectOks, isOkE]
      | error e => simp [collectOks, isOkE, ih]

lemma idxmax_firstArgmax : ∀ (col : List ℚ), col ≠ [] → FirstArgmax col (idxmax col) := by
  intro col
  induction col with
  | nil => intro h; exact absurd rfl h
  | cons x xs ih =>
      intro _
      by_cases hxs : xs = []
      · subst hxs
        refine ⟨by simp [idxmax], ?_, ?_⟩
        · intro j hj
          simp only [List.length_cons, List.length_nil] at hj
          have hj0 : j = 0 := by omega
          subst hj0
          simp [idxmax]
        · intro j hj
          simp [idxmax] at hj
      · obtain ⟨h1, h2, h3⟩ := ih hxs
        have hv : xs.get? (idxmax xs) = some (xs.getD (idxmax xs) 0) := by
          rw [List.getD_eq_getElem?_getD, ← List.get?_eq_getElem?]
          cases hg : xs.get? (idxmax xs) with
          | none => exact absurd (List.get?_eq_none.mp hg) (not_le.mpr h1)
          | some v => rfl
        by_cases hc : x < xs.getD (idxmax xs) 0
        · have hidx : idxmax (x :: xs) = idxmax xs + 1 := by
            simp only [idxmax, hv, if_pos hc]
          refine ⟨?_, ?_, ?_⟩
          · rw [hidx]; simpa using Nat.succ_lt_succ h1
          · intro j hj
            rw [hidx]
            cases j with
            | zero => simpa using le_of_lt hc
            | succ k =>
                simp only [List.getD_cons_succ]
                exact h2 k (by simpa using Nat.lt_of_succ_lt_succ hj)
          · intro j hj
            rw [hidx] at hj ⊢
            cases j with
            | zero => simpa using hc
            | succ k =>
                simp only [List.getD_cons_succ]
                exact h3 k (Nat.lt_of_succ_lt_succ hj)
        · have hidx : idxmax (x :: xs) = 0 := by
            simp only [idxmax, hv, if_neg hc]
          refine ⟨?_, ?_, ?_⟩
          · rw [hidx]; simp
          · intro j hj
            rw [hidx]
            cases j with
            | zero => simp
            | succ k =>
                simp only [List.getD_cons_succ, List.getD_cons_zero]
                exact le_trans (h2 k (by simpa using Nat.lt_of_succ_lt_succ hj))
                  (not_lt.mp hc)
          · intro j hj
            rw [hidx] at hj
            exact absurd hj (Nat.not_lt_zero j)

lemma idxmin_firstArgmin : ∀ (col : List ℚ), col ≠ [] → FirstArgmin col (idxmin col) := by
  intro col
  induction col with
  | nil => intro h; exact absurd rfl h
  | cons x xs ih =>
      intro _
      by_cases hxs : xs = []
      · subst hxs
        refine ⟨by simp [idxmin], ?_, ?_⟩
        · intro j hj
          simp only [List.length_cons, List.length_nil] at hj
          have hj0 : j = 0 := by omega
          subst hj0
          simp [idxmin]
        · intro j hj
          simp [idxmin] at hj
      · obtain ⟨h1, h2, h3⟩ := ih hxs
        have hv : xs.get? (idxmin xs) = some (xs.getD (idxmin xs) 0) := by
          rw [List.getD_eq_getElem?_getD, ← List.get?_eq_getElem?]
          cases hg : xs.get? (idxmin xs) with
          | none => exact absurd (List.get?_eq_none.mp hg) (not_le.mpr h1)
          | some v => rfl
        by_cases hc : xs.getD (idxmin xs) 0 < x
        · have hidx : idxmin (x :: xs) = idxmin xs + 1 := by
            simp only [idxmin, hv, if_pos hc]
          refine ⟨?_, ?_, ?_⟩
          · rw [hidx]; simpa using Nat.succ_lt_succ h1
          · intro j hj
            rw [hidx]
            cases j with
            | zero => simpa using le_of_lt hc
            | succ k =>
                simp only [List.getD_cons_succ]
                exact h2 k (by simpa using Nat.lt_of_succ_lt_succ hj)
          · intro j hj
            rw [hidx] at hj ⊢
            cases j with
            | zero => simpa using hc
            | succ k =>
                simp only [List.getD_cons_succ]
                exact h3 k (Nat.lt_of_succ_lt_succ hj)
        · have hidx : idxmin (x :: xs) = 0 := by
            simp only [idxmin, hv, if_neg hc]
          refine ⟨?_, ?_, ?_⟩
          · rw [hidx]; simp
          · intro j hj
            rw [hidx]
            cases j with
            | zero => simp
            | succ k =>
                simp only [List.getD_cons_succ, List.getD_cons_zero]
                exact le_trans (not_lt.mp hc)
                  (h2 k (by simpa using Nat.lt_of_succ_lt_succ hj))
          · intro j hj
            rw [hidx] at hj
            exact absurd hj (Nat.not_lt_zero j)

lemma select_best_of_ne_nil {α : Type _} (m : Bool) (score : α → ℚ) (results : List α)
    (h : results ≠ []) :
    ∃ b, select_best m score results = some b ∧ b ∈ results := by
  have hcol : results.map score ≠ [] := by simpa using h
  have hlt : (if m then idxmin (results.map score) else idxmax (results.map score)) <
      results.length := by
    cases m with
    | false => simpa using (idxmax_firstArgmax _ hcol).1
    | true => simpa using (idxmin_firstArgmin _ hcol).1
  obtain ⟨b, hb⟩ : ∃ b,
      results.get? (if m then idxmin (results.map score) else idxmax (results.map score)) =
        some b :=
    ⟨_, List.get?_eq_get hlt⟩
  exact ⟨b, by simpa [select_best] using hb, List.get?_mem hb⟩

lemma select_best_nil {α : Type _} (m : Bool) (score : α → ℚ) :
    select_best m score ([] : List α) = none := by
  cases m <;> simp [select_best, idxmax, idxmin]

/-! ## Claim theorems -/

/-- C10: calling `get_metrics` while the stored portfolio is still `None`
(no `run_backtest` yet) raises `ValueError("请先运行回测")` instead of
returning a metrics record. -/
theorem get_metrics_before_run_raises :
    get_metrics none = Except.error "请先运行回测" := rfl

/-- C9: for a price series of length `N ≥ 1` and a signal series of the
same length, the trajectory produced by `_simple_backtest` has exactly
`N - 1` records (the first bar only seeds state). -/
theorem trajectory_length_eq_pred (cfg : SimCfg) (closes : List ℚ) (signals : List Int)
    (hlen : closes.length = signals.length) (hpos : 1 ≤ closes.length) :
    (simple_backtest cfg closes signals).length = closes.length - 1 := by
  unfold simple_backtest
  rw [runSteps_length]
  simp [List.length_zip, List.length_drop, hlen]

/-- Witness for C9 at a concrete input of length 3. -/
theorem trajectory_length_eq_pred_witness :
    (simple_backtest ⟨1000000, 3/10, 1/10000⟩ [1, 2, 3] [1, 0, 1]).length = 2 :=
  trajectory_length_eq_pred ⟨1000000, 3/10, 1/10000⟩ [1, 2, 3] [1, 0, 1] rfl (by decide)

lemma drop_eq_cons_of_get (l : List Int) : ∀ (i : Nat) (sig : Int), l.get? i = some sig →
    l.drop i = sig :: l.drop (i + 1) := by
  induction l with
  | nil => intro i sig h; simp at h
  | cons x xs ih =>
      intro i sig h
      cases i with
      | zero =>
          rw [List.get?_cons_zero] at h
          rw [Option.some.inj h]
          rfl
      | succ j =>
          rw [List.get?_cons_succ] at h
          rw [List.drop_succ_cons, List.drop_succ_cons]
          exact ih j sig h

lemma runStepsIdx_ok (cfg : SimCfg) (signals : List Int) :
    ∀ (ps : List ℚ) (i : Nat) (s : SimState), i + ps.length ≤ signals.length →
    runStepsIdx cfg signals i s ps =
      Except.ok (runSteps cfg s (ps.zip (signals.drop i))) := by
  intro ps
  induction ps with
  | nil => intro i s _; simp [runStepsIdx, runSteps]
  | cons p ps ih =>
      intro i s h
      have hi : i < signals.length := by
        simp only [List.length_cons] at h
        omega
      obtain ⟨sig, hsig⟩ : ∃ sig, signals.get? i = some sig := ⟨_, List.get?_eq_get hi⟩
      have hrec := ih (i + 1) (tradeStep cfg s p sig)
        (by simp only [List.length_cons] at h; omega)
      rw [drop_eq_cons_of_get signals i sig hsig, List.zip_cons_cons]
      simp only [runStepsIdx, hsig, hrec, runSteps]

lemma runStepsIdx_err (cfg : SimCfg) (signals : List Int) :
    ∀ (ps : List ℚ) (i : Nat) (s : SimState), 1 ≤ ps.length →
    signals.length < i + ps.length →
    runStepsIdx cfg signals i s ps = Except.error "IndexError" := by
  intro ps
  induction ps with
  | nil => intro i s h _; simp at h
  | cons p ps ih =>
      intro i s _ hlt
      rcases hsig : signals.get? i with _ | sig
      · simp only [runStepsIdx, hsig]
      · obtain ⟨hi, -⟩ := List.get?_eq_some.mp hsig
        have hps : 1 ≤ ps.length := by
          simp only [List.length_cons] at hlt
          omega
        have hrec := ih (i + 1) (tradeStep cfg s p sig) hps
          (by simp only [List.length_cons] at hlt; omega)
        simp only [runStepsIdx, hsig, hrec]

/-- C1 (counterexample): on empty price and signal series the run
returns the empty trajectory without error; a non-positive price read
during the loop is traded through normally (`[1, -1]` with a long
signal yields the trajectory `[100]`); and the one failing input in
the claim's scope — an empty signal series against two prices — raises
an `IndexError` from the out-of-range `signals.iloc[i]` access, not an
`InvalidInputError`.  The spec-side contract `spec_run` demands an
`InvalidInputError` on all of these, so the claim as stated is false
of the code. -/
theorem no_invalid_input_error_on_bad_input :
    simple_backtest_run ⟨100, 1/2, 1/10⟩ ([] : List ℚ) [] = Except.ok [] ∧
    simple_backtest_run ⟨100, 1/2, 1/10⟩ [1, -1] [0, 1] = Except.ok [100] ∧
    simple_backtest_run ⟨100, 1/2, 1/10⟩ [1, 1] [] = Except.error "IndexError" ∧
    spec_run ⟨100, 1/2, 1/10⟩ ([] : List ℚ) [] = Except.error SpecErr.invalidInput ∧
    spec_run ⟨100, 1/2, 1/10⟩ [1, -1] [0, 1] = Except.error SpecErr.invalidInput := by
  refine ⟨rfl, ?_, rfl, rfl, ?_⟩
  · norm_num [simple_backtest_run, runStepsIdx, tradeStep]
  · norm_num [spec_run, simple_backtest, runSteps, tradeStep]

/-- C1 (amended): the simulator validates nothing itself, and no
`InvalidInputError` exists.  Whenever every signal access is in range
(`|signals| ≥ |prices|`, or `|prices| ≤ 1` so the loop body never
runs — both series empty included), the run returns a trajectory of
length `|prices| - 1` without error, regardless of price values, so a
non-positive `current_price` never causes a failure.  The only failure
path is an `IndexError` from `signals.iloc[i]`, raised exactly when
`|prices| ≥ 2` and the signal series is shorter than the price
series. -/
theorem simulator_no_validation (cfg : SimCfg) (closes : List ℚ) (signals : List Int) :
    ((closes.length ≤ signals.length ∨ closes.length ≤ 1) →
      simple_backtest_run cfg closes signals =
        Except.ok (simple_backtest cfg closes signals) ∧
      (simple_backtest cfg closes signals).length = closes.length - 1) ∧
    (2 ≤ closes.length → signals.length < closes.length →
      simple_backtest_run cfg closes signals = Except.error "IndexError") := by
  constructor
  · intro hcase
    have hok : simple_backtest_run cfg closes signals =
        Except.ok (simple_backtest cfg closes signals) := by
      by_cases hsmall : closes.length ≤ 1
      case neg =>
        have hle : closes.length ≤ signals.length := by
          rcases hcase with h | h
          · exact h
          · exact absurd h hsmall
        unfold simple_backtest_run simple_backtest
        apply runStepsIdx_ok
        simp only [List.length_drop]
        omega
      case pos =>
        have hdrop : closes.drop 1 = [] := by
          cases closes with
          | nil => rfl
          | cons c cs =>
              simp only [List.length_cons] at hsmall
              have : cs = [] := List.length_eq_zero.mp (by omega)
              rw [this]
              rfl
        unfold simple_backtest_run simple_backtest
        rw [hdrop]
        rfl
    refine ⟨hok, ?_⟩
    unfold simple_backtest
    rw [runSteps_length]
    simp only [List.length_zip, List.length_drop]
    omega
  · intro h2 hlt
    unfold simple_backtest_run
    apply runStepsIdx_err
    · simp only [List.length_drop]
      omega
    · simp only [List.length_drop]
      omega

/-- Witness for C1's amended theorem: the empty-input run succeeds with
the empty trajectory, and the two-prices/no-signals run fails with
`IndexError`. -/
theorem simulator_no_validation_witness :
    simple_backtest_run ⟨100, 1/2, 1/10⟩ ([] : List ℚ) [] =
        Except.ok (simple_backtest ⟨100, 1/2, 1/10⟩ [] []) ∧
    simple_backtest_run ⟨100, 1/2, 1/10⟩ [1, 1] [] = Except.error "IndexError" :=
  ⟨((simulator_no_validation ⟨100, 1/2, 1/10⟩ [] []).1 (Or.inr (by decide))).1,
   (simulator_no_validation ⟨100, 1/2, 1/10⟩ [1, 1] []).2 (by decide) (by decide)⟩

/-- C2: the state transition of the simulation loop, exactly as claimed:
long entry from flat commits `cash * position_ratio` at the current
price with no commission; short entry from flat sets the negated
position and pays commission `|position| * price * commission_rate`
only; flat-on-open-position closes at the current price with no
commission; every other `(signal, position)` combination leaves the
state unchanged; and after the dispatch the value
`cash + position * current_price` is appended to the trajectory. -/
theorem trade_step_transition (cfg : SimCfg) (s : SimState) (p : ℚ) (sig : Int)
    (rest : List (ℚ × Int)) :
    (sig = 1 → s.position = 0 →
      tradeStep cfg s p sig =
        { cash := s.cash - s.cash * cfg.position_ratio,
          position := s.cash * cfg.position_ratio / p }) ∧
    (sig = -1 → s.position = 0 →
      tradeStep cfg s p sig =
        { cash := s.cash -
            |-(s.cash * cfg.position_ratio) / p| * p * cfg.commission_rate,
          position := -(s.cash * cfg.position_ratio) / p }) ∧
    (sig = 0 → s.position ≠ 0 →
      tradeStep cfg s p sig = { cash := s.cash + s.position * p, position := 0 }) ∧
    (¬(sig = 1 ∧ s.position = 0) → ¬(sig = -1 ∧ s.position = 0) →
      ¬(sig = 0 ∧ s.position ≠ 0) → tradeStep cfg s p sig = s) ∧
    runSteps cfg s ((p, sig) :: rest) =
      ((tradeStep cfg s p sig).cash + (tradeStep cfg s p sig).position * p) ::
        runSteps cfg (tradeStep cfg s p sig) rest := by
  refine ⟨?_, ?_, ?_, ?_, rfl⟩
  · intro h1 h2
    subst h1
    norm_num [tradeStep, h2]
  · intro h1 h2
    subst h1
    norm_num [tradeStep, h2]
  · intro h1 h2
    subst h1
    norm_num [tradeStep, h2]
  · intro h1 h2 h3
    simp only [tradeStep, if_neg h1, if_neg h2, if_neg h3]

/-- Witness for C2 at a concrete long entry. -/
theorem trade_step_transition_witness :
    tradeStep ⟨100, 1/2, 1/10⟩ ⟨100, 0⟩ 2 1 = ⟨50, 25⟩ := by
  have h := (trade_step_transition ⟨100, 1/2, 1/10⟩ ⟨100, 0⟩ 2 1 []).1 rfl rfl
  rw [h]
  norm_num [SimState.mk.injEq]

/-- C3 (counterexample): a one-record trajectory has an empty return
series after `dropna`, and `get_metrics` on it returns a metrics record
(no exception); the spec demands an `InsufficientDataError` here. -/
theorem metrics_on_empty_returns_ok :
    returnsOf [5] = [] ∧ isOkE (get_metrics (some [5])) = true :=
  ⟨rfl, rfl⟩

/-- C3 (amended): `get_metrics` performs no emptiness check on the return
series: on any stored trajectory whose return series is empty it returns
a metrics record — with `total_return = 0` and the mean-based fields
degenerate — rather than raising. -/
theorem metrics_empty_returns_record (values : List ℚ) (h : returnsOf values = []) :
    totalReturnOfResult (get_metrics (some values)) = some 0 := by
  simp [get_metrics, totalReturnOfResult, h, total_return_of]

/-- Witness for C3's amended theorem at the one-record trajectory `[5]`. -/
theorem metrics_empty_returns_record_witness :
    totalReturnOfResult (get_metrics (some [5])) = some 0 :=
  metrics_empty_returns_record [5] rfl

lemma select_best_mem {α : Type _} {m : Bool} {score : α → ℚ} {results : List α} {b : α}
    (h : select_best m score results = some b) : b ∈ results :=
  List.get?_mem (by simpa [select_best] using h)

/-- C4 (counterexample): a `random_search` run in which the single trial
fails raises (`KeyError` at the metric-column lookup on the empty result
frame) instead of returning an effectively empty report, contradicting
the claim. -/
theorem random_search_raises_when_all_fail :
    random_search false (fun q : ℚ => q) [Except.error "boom"] =
      Except.error "KeyError" := rfl

/-- C4 (amended): if every trial of `random_search` fails, the call
raises (`KeyError` on the missing metric column of the empty result
frame) rather than returning an empty report; the result set of a
successful call contains exactly the successfully completed trials, in
order, and the best row is one of them. -/
theorem random_search_error_on_all_failed {α : Type _} (m : Bool) (score : α → ℚ)
    (trials : List (Except String α)) :
    ((∀ t ∈ trials, isOkE t = false) →
      random_search m score trials = Except.error "KeyError") ∧
    (∀ b res, random_search m score trials = Except.ok (b, res) →
      res = collectOks trials ∧ b ∈ res) := by
  constructor
  · intro hall
    have hnil : collectOks trials = [] := (collectOks_eq_nil_iff trials).mpr hall
    simp [random_search, hnil, select_best_nil]
  · intro b res hok
    rcases hsel : select_best m score (collectOks trials) with _ | best
    · simp [random_search, hsel] at hok
    · have hmem := select_best_mem hsel
      simp [random_search, hsel] at hok
      obtain ⟨h1, h2⟩ := hok
      subst h1
      subst h2
      exact ⟨rfl, hmem⟩

/-- Witness for C4's amended theorem: two failing trials. -/
theorem random_search_error_on_all_failed_witness :
    random_search true (fun q : ℚ => q) [Except.error "x", Except.error "y"] =
      Except.error "KeyError" :=
  (random_search_error_on_all_failed true (fun q : ℚ => q)
    [Except.error "x", Except.error "y"]).1 (by decide)

/-- C5: `grid_search` skips a failing trial and continues with the
remaining combinations (the result set of a completed search is exactly
the ordered list of surviving trials), raises its hard all-failed error
(`ValueError("没有成功的回测结果")`, the code's realization of the
spec's `NoViableTrialError`) if and only if every combination fails,
and otherwise completes without raising. -/
theorem grid_search_soft_failure_policy {α : Type _} (m : Bool) (score : α → ℚ)
    (trials : List (Except String α)) :
    (grid_search m score trials = Except.error "没有成功的回测结果" ↔
      ∀ t ∈ trials, isOkE t = false) ∧
    (∀ b res, grid_search m score trials = Except.ok (b, res) →
      res = collectOks trials ∧ b ∈ res) ∧
    ((¬ ∀ t ∈ trials, isOkE t = false) → isOkE (grid_search m score trials) = true) := by
  by_cases hnil : collectOks trials = []
  · have hall : ∀ t ∈ trials, isOkE t = false := (collectOks_eq_nil_iff trials).mp hnil
    refine ⟨?_, ?_, ?_⟩
    · simp only [grid_search, hnil]
      simpa using hall
    · intro b res hok
      simp [grid_search, hnil] at hok
    · intro hcon
      exact absurd hall hcon
  · obtain ⟨best, hsel, hbmem⟩ := select_best_of_ne_nil m score (collectOks trials) hnil
    have hlen : ¬ (collectOks trials).length = 0 := by
      simpa [List.length_eq_zero] using hnil
    refine ⟨?_, ?_, ?_⟩
    · constructor
      · intro h
        simp [grid_search, hlen, hsel] at h
      · intro hall
        exact absurd ((collectOks_eq_nil_iff trials).mpr hall) hnil
    · intro b res hok
      simp [grid_search, hlen, hsel] at hok
      obtain ⟨h1, h2⟩ := hok
      subst h1
      subst h2
      exact ⟨rfl, hbmem⟩
    · intro _
      simp [grid_search, hlen, hsel, isOkE]

/-- Witness for C5: one surviving and one failing trial. -/
theorem grid_search_soft_failure_policy_witness :
    isOkE (grid_search false (fun q : ℚ => q) [Except.ok 3, Except.error "x"]) = true :=
  (grid_search_soft_failure_policy false (fun q : ℚ => q)
    [Except.ok 3, Except.error "x"]).2.2 (by decide)

/-- C6: for every completed search — grid or random — with at least one
successful trial, the returned best row is the element of the result set
at `idxmin` of the objective column when the objective is
`max_drawdown`, and at `idxmax` otherwise; and that index is the first
index attaining the minimum (respectively maximum), so ties go to the
first trial in enumeration order. -/
theorem best_trial_selection {α : Type _} (m : Bool) (score : α → ℚ)
    (trials : List (Except String α)) (b : α) (res : List α)
    (hok : grid_search m score trials = Except.ok (b, res) ∨
           random_search m score trials = Except.ok (b, res)) :
    res = collectOks trials ∧
    res.get? (if m then idxmin (res.map score) else idxmax (res.map score)) = some b ∧
    (if m then FirstArgmin (res.map score) (idxmin (res.map score))
     else FirstArgmax (res.map score) (idxmax (res.map score))) := by
  have hsel : select_best m score (collectOks trials) = some b ∧ res = collectOks trials := by
    rcases hok with hok | hok
    · by_cases hlen : (collectOks trials).length = 0
      · simp [grid_search, hlen] at hok
      · rcases hs : select_best m score (collectOks trials) with _ | best
        · simp [grid_search, hlen, hs] at hok
        · simp [grid_search, hlen, hs] at hok
          exact ⟨by rw [hok.1], hok.2.symm⟩
    · rcases hs : select_best m score (collectOks trials) with _ | best
      · simp [random_search, hs] at hok
      · simp [random_search, hs] at hok
        exact ⟨by rw [hok.1], hok.2.symm⟩
  obtain ⟨hs, hres⟩ := hsel
  rw [← hres] at hs
  have hne : res ≠ [] := by
    intro h
    rw [h, select_best_nil] at hs
    exact Option.noConfusion hs
  have hcol : res.map score ≠ [] := by simpa using hne
  refine ⟨hres, by simpa [select_best] using hs, ?_⟩
  cases m with
  | false => simpa using idxmax_firstArgmax _ hcol
  | true => simpa using idxmin_firstArgmin _ hcol

/-- Witness for C6: objective not `max_drawdown`, trials scoring
`[1, 5, 5]` with one failure; the first of the two tied maxima wins. -/
theorem best_trial_selection_witness :
    ([1, 5, 5] : List ℚ) =
        collectOks [Except.ok 1, Except.error "e", Except.ok 5, Except.ok 5] ∧
    ([1, 5, 5] : List ℚ).get?
        (if false then idxmin (([1, 5, 5] : List ℚ).map (fun q : ℚ => q))
         else idxmax (([1, 5, 5] : List ℚ).map (fun q : ℚ => q))) = some 5 ∧
    (if false then
        FirstArgmin (([1, 5, 5] : List ℚ).map (fun q : ℚ => q))
          (idxmin (([1, 5, 5] : List ℚ).map (fun q : ℚ => q)))
     else
        FirstArgmax (([1, 5, 5] : List ℚ).map (fun q : ℚ => q))
          (idxmax (([1, 5, 5] : List ℚ).map (fun q : ℚ => q)))) :=
  best_trial_selection false (fun q : ℚ => q)
    [Except.ok 1, Except.error "e", Except.ok 5, Except.ok 5] 5 [1, 5, 5]
    (Or.inl (by norm_num [grid_search, collectOks, select_best, idxmax]))

lemma returnsAux_prod (l : List ℚ) : ∀ prev : ℚ, prev ≠ 0 →
    (∀ x ∈ l.dropLast, x ≠ 0) →
    ((returnsAux prev l).map (fun r => 1 + r)).prod = l.getLastD prev / prev := by
  induction l with
  | nil =>
      intro prev h0 _
      simp [returnsAux, div_self h0]
  | cons x xs ih =>
      intro prev h0 hnz
      cases xs with
      | nil =>
          simp only [returnsAux, List.map_cons, List.map_nil, List.prod_cons,
            List.prod_nil, List.getLastD_cons, List.getLastD_nil, mul_one]
          field_simp
      | cons y ys =>
          have hx : x ≠ 0 := by
            apply hnz
            simp [List.dropLast]
          have hrest : ∀ z ∈ (y :: ys).dropLast, z ≠ 0 := by
            intro z hz
            apply hnz
            simp only [List.dropLast]
            exact List.mem_cons_of_mem x hz
          have hIH := ih x hx hrest
          simp only [returnsAux, List.map_cons, List.prod_cons] at hIH ⊢
          rw [hIH]
          simp only [List.getLastD_cons]
          field_simp
          ring

/-- C7 (counterexample): for the run with `initial_cash = 100`,
`position_ratio = 1/2`, `commission_rate = 1/10`, constant price `1` and
signals `[_, short, flat]`, the trajectory is `[45, 45]` (the short-entry
commission is paid on the first step), its return series is `[0]` with no
zero denominator, so `total_return = 0` — while
`last_portfolio_value / initial_cash - 1 = 45/100 - 1 = -11/20 ≠ 0`.
The claim as stated is false of the code. -/
theorem total_return_not_vs_initial_cash :
    simple_backtest ⟨100, 1/2, 1/10⟩ [1, 1, 1] [0, -1, 0] = [45, 45] ∧
    total_return_of (returnsOf (simple_backtest ⟨100, 1/2, 1/10⟩ [1, 1, 1] [0, -1, 0])) = 0 ∧
    (45 : ℚ) / 100 - 1 = -11/20 ∧ (0 : ℚ) ≠ -11/20 := by
  refine ⟨?_, ?_, by norm_num, by norm_num⟩
  · norm_num [simple_backtest, runSteps, tradeStep]
  · norm_num [simple_backtest, runSteps, tradeStep, returnsOf, returnsAux, total_return_of]

/-- C7 (amended): for every simulation run whose trajectory is non-empty
and whose returns have no degenerate (NaN) denominator — every
trajectory value before the last is nonzero, the first one included —
`total_return` computed from the trajectory's returns equals
`last_portfolio_value / first_portfolio_value - 1`.  (The first
trajectory value equals `initial_cash` unless the very first executed
step opens a short position, whose entry commission makes it differ —
the counterexample above.) -/
theorem total_return_eq_last_over_first (cfg : SimCfg) (closes : List ℚ)
    (signals : List Int) (v0 : ℚ) (rest : List ℚ)
    (htraj : simple_backtest cfg closes signals = v0 :: rest)
    (h0 : v0 ≠ 0)
    (hnz : ∀ x ∈ (v0 :: rest).dropLast, x ≠ 0) :
    total_return_of (returnsOf (simple_backtest cfg closes signals)) =
      (simple_backtest cfg closes signals).getLastD 0 / v0 - 1 := by
  rw [htraj]
  have hrest : ∀ x ∈ rest.dropLast, x ≠ 0 := by
    intro x hx
    apply hnz
    cases rest with
    | nil => simp at hx
    | cons y ys =>
        simp only [List.dropLast]
        exact List.mem_cons_of_mem v0 hx
  have hprod := returnsAux_prod rest v0 h0 hrest
  simp only [returnsOf, total_return_of, List.getLastD_cons]
  rw [hprod]

/-- Witness for C7's amended theorem at the counterexample's run: there
`total_return = 45/45 - 1 = 0`, matching last over first. -/
theorem total_return_eq_last_over_first_witness :
    total_return_of (returnsOf (simple_backtest ⟨100, 1/2, 1/10⟩ [1, 1, 1] [0, -1, 0])) =
      (simple_backtest ⟨100, 1/2, 1/10⟩ [1, 1, 1] [0, -1, 0]).getLastD 0 / 45 - 1 :=
  total_return_eq_last_over_first ⟨100, 1/2, 1/10⟩ [1, 1, 1] [0, -1, 0] 45 [45]
    (by norm_num [simple_backtest, runSteps, tradeStep])
    (by norm_num)
    (by norm_num [List.dropLast])

lemma foldl_min_le_init (l : List ℚ) : ∀ a : ℚ, l.foldl min a ≤ a := by
  induction l with
  | nil => intro a; simp
  | cons x xs ih => intro a; exact le_trans (ih (min a x)) (min_le_left a x)

lemma foldl_min_le_mem (l : List ℚ) : ∀ (a x : ℚ), x ∈ l → l.foldl min a ≤ x := by
  induction l with
  | nil => intro a x hx; simp at hx
  | cons y ys ih =>
      intro a x hx
      rcases List.mem_cons.mp hx with rfl | hx
      · exact le_trans (foldl_min_le_init ys (min a x)) (min_le_right a x)
      · exact ih (min a y) x hx

lemma le_foldl_min (l : List ℚ) : ∀ (a c : ℚ), c ≤ a → (∀ x ∈ l, c ≤ x) →
    c ≤ l.foldl min a := by
  induction l with
  | nil => intro a c h _; simpa using h
  | cons y ys ih =>
      intro a c h hall
      exact ih (min a y) c (le_min h (hall y (List.mem_cons_self y ys)))
        (fun x hx => hall x (List.mem_cons_of_mem _ hx))

lemma scanMulAux_pos (l : List ℚ) : ∀ acc : ℚ, 0 < acc → (∀ x ∈ l, 0 < x) →
    ∀ y ∈ scanMulAux acc l, 0 < y := by
  induction l with
  | nil => intro acc _ _ y hy; simp [scanMulAux] at hy
  | cons x xs ih =>
      intro acc hacc hpos y hy
      have hx : 0 < x := hpos x (List.mem_cons_self x xs)
      simp only [scanMulAux, List.mem_cons] at hy
      rcases hy with rfl | hy
      · exact mul_pos hacc hx
      · exact ih (acc * x) (mul_pos hacc hx)
          (fun z hz => hpos z (List.mem_cons_of_mem _ hz)) y hy

lemma zip_scanMax_nonpos (xs : List ℚ) : ∀ m : ℚ, 0 < m → (∀ x ∈ xs, 0 < x) →
    ∀ d ∈ List.zipWith (fun w mm => (w - mm) / mm) xs (scanMaxAux m xs), d ≤ 0 := by
  induction xs with
  | nil => intro m _ _ d hd; simp at hd
  | cons x xs ih =>
      intro m hm hpos d hd
      have hmax : 0 < max m x := lt_max_of_lt_left hm
      simp only [scanMaxAux, List.zipWith_cons_cons, List.mem_cons] at hd
      rcases hd with rfl | hd
      · exact div_nonpos_iff.mpr (Or.inr ⟨sub_nonpos.mpr (le_max_right m x), le_of_lt hmax⟩)
      · exact ih (max m x) hmax (fun z hz => hpos z (List.mem_cons_of_mem _ hz)) d hd

lemma zip_scanMax_nonneg_iff (xs : List ℚ) : ∀ m : ℚ, 0 < m → (∀ x ∈ xs, 0 < x) →
    ((∀ d ∈ List.zipWith (fun w mm => (w - mm) / mm) xs (scanMaxAux m xs), 0 ≤ d) ↔
      List.Chain (· ≤ ·) m xs) := by
  induction xs with
  | nil => intro m _ _; simp
  | cons x xs ih =>
      intro m hm hpos
      have hx : 0 < x := hpos x (List.mem_cons_self x xs)
      have hrest : ∀ z ∈ xs, 0 < z := fun z hz => hpos z (List.mem_cons_of_mem _ hz)
      simp only [scanMaxAux, List.zipWith_cons_cons, List.forall_mem_cons,
        List.chain_cons]
      constructor
      · rintro ⟨h1, h2⟩
        have hxm : m ≤ x := by
          by_contra hcon
          push_neg at hcon
          rw [max_eq_left (le_of_lt hcon)] at h1
          have hneg : x - m < 0 := sub_neg.mpr hcon
          have := div_neg_of_neg_of_pos hneg hm
          linarith
        have hmx : max m x = x := max_eq_right hxm
        rw [hmx] at h2
        exact ⟨hxm, (ih x hx hrest).mp h2⟩
      · rintro ⟨hxm, hchain⟩
        have hmx : max m x = x := max_eq_right hxm
        rw [hmx]
        exact ⟨by simp [sub_self], (ih x hx hrest).mpr hchain⟩

/-- C8 (counterexample): for `returns = [-2, 1/2]` the wealth index is
`[-1, -3/2]` — strictly decreasing — yet the computed drawdown series is
`[0, 1/2]` (the running maximum is negative, flipping the sign of the
quotient), so `max_drawdown = 0` while the wealth index is not
non-decreasing: the claimed equivalence fails once a return below `-1`
makes the wealth index negative. -/
theorem max_drawdown_zero_iff_fails :
    max_drawdown_of [-2, 1/2] = some 0 ∧
    ¬ List.Chain' (· ≤ ·) (cumprodOnePlus [-2, 1/2]) := by
  constructor
  · norm_num [max_drawdown_of, drawdownsOf, cumprodOnePlus, scanMulAux, runningMax,
      scanMaxAux, listMin]
  · norm_num [cumprodOnePlus, scanMulAux, List.chain'_cons]

/-- C8 (amended): for every non-empty return sequence in which every
`1 + r[j]` is positive (so the wealth index stays positive — the regime
the claim's formulas presuppose), the computed `max_drawdown` exists,
is `≤ 0`, and equals `0` if and only if the wealth index is
non-decreasing throughout.  Without the positivity restriction the
equivalence is refuted by the counterexample above. -/
theorem max_drawdown_nonpos_and_zero_iff (r : List ℚ) (hne : r ≠ [])
    (hpos : ∀ x ∈ r, 0 < 1 + x) :
    (max_drawdown_of r).isSome = true ∧
    ∀ d, max_drawdown_of r = some d →
      d ≤ 0 ∧ (d = 0 ↔ List.Chain' (· ≤ ·) (cumprodOnePlus r)) := by
  obtain ⟨w, ws, hW⟩ : ∃ w ws, cumprodOnePlus r = w :: ws := by
    cases hr : r with
    | nil => exact absurd hr hne
    | cons a as =>
        subst hr
        exact ⟨_, _, rfl⟩
  have hWpos : ∀ y ∈ cumprodOnePlus r, 0 < y := by
    apply scanMulAux_pos _ 1 one_pos
    intro x hx
    obtain ⟨a, ha, rfl⟩ := List.mem_map.mp hx
    exact hpos a ha
  have hw : 0 < w := hWpos w (by rw [hW]; exact List.mem_cons_self _ _)
  have hws : ∀ y ∈ ws, 0 < y := fun y hy =>
    hWpos y (by rw [hW]; exact List.mem_cons_of_mem _ hy)
  have hD : drawdownsOf r =
      0 :: List.zipWith (fun a b => (a - b) / b) ws (scanMaxAux w ws) := by
    unfold drawdownsOf
    rw [hW]
    simp [runningMax]
  have hmdd : max_drawdown_of r =
      some ((List.zipWith (fun a b => (a - b) / b) ws (scanMaxAux w ws)).foldl min 0) := by
    rw [max_drawdown_of, hD]
    rfl
  refine ⟨by rw [hmdd]; rfl, ?_⟩
  intro d hd
  rw [hmdd] at hd
  have hdval := Option.some.inj hd
  constructor
  · rw [← hdval]
    exact foldl_min_le_init _ 0
  · rw [← hdval, hW]
    show _ ↔ List.Chain (· ≤ ·) w ws
    rw [← zip_scanMax_nonneg_iff ws w hw hws]
    constructor
    · intro h0 x hx
      calc (0 : ℚ) = _ := h0.symm
        _ ≤ x := foldl_min_le_mem _ 0 x hx
    · intro hall
      exact le_antisymm (foldl_min_le_init _ 0) (le_foldl_min _ 0 0 le_rfl hall)

/-- Witness for C8's amended theorem at `returns = [1]`: wealth `[2]`,
drawdown `[0]`, `max_drawdown = 0` and the one-element wealth index is
trivially non-decreasing. -/
theorem max_drawdown_nonpos_and_zero_iff_witness :
    (0 : ℚ) ≤ 0 ∧ ((0 : ℚ) = 0 ↔ List.Chain' (· ≤ ·) (cumprodOnePlus [1])) :=
  (max_drawdown_nonpos_and_zero_iff [1] (by decide) (by norm_num)).2 0
    (by norm_num [max_drawdown_of, drawdownsOf, cumprodOnePlus, scanMulAux,
      runningMax, scanMaxAux, listMin])
